import Mathlib

/-!
Verification of the process-tree visualizer (src/process-tree-python.py)
against its natural-language specification.

The Python program is embedded shallowly:

* `ProcessInfo` mirrors the dataclass of the same name (lines 35-67);
  Python `float` fields are modelled as exact rationals (`Rat`) and the
  `children` field is not stored on the record: the child lists that
  `build_tree` produces are recovered by the functions below, which is
  faithful because under unique pids the append-then-sort loop of
  `build_tree` determines them uniquely.
* `self.processes`, a Python dict keyed by pid with insertion order, is
  modelled as a `List ProcessInfo`; theorems that depend on the dict's
  key uniqueness carry the hypothesis `(procs.map (fun p => p.pid)).Nodup`.
* Rendering (`display_tree`, lines 203-275) is modelled by an explicit
  work-list machine `renderSteps` over an arbitrary finite node graph,
  which is the standard de-recursion of the Python recursion: the
  `visited` set is threaded left-to-right exactly as the mutated Python
  set is.  Output lines are modelled as the contents of the `print`
  calls, with the colorama escape sequences spelled out (the program
  initialises colorama when available, lines 22-25).
-/

/-- Embeds the `ProcessInfo` dataclass (source lines 35-48).  Python
floats (`cpu_percent`, `memory_mb`, `create_time`) are modelled as
rationals; `children` is derived, not stored. -/
structure ProcessInfo where
  pid : Int
  ppid : Int
  name : String
  username : String
  status : String
  cpu_percent : Rat
  memory_mb : Rat
  num_threads : Nat
  create_time : Rat
  cmdline : String
deriving DecidableEq

/-- colorama `Fore.RED`. -/
def foreRED : String := "\x1b[31m"

/-- colorama `Fore.GREEN`. -/
def foreGREEN : String := "\x1b[32m"

/-- colorama `Fore.YELLOW`. -/
def foreYELLOW : String := "\x1b[33m"

/-- colorama `Fore.BLUE`. -/
def foreBLUE : String := "\x1b[34m"

/-- colorama `Fore.MAGENTA`. -/
def foreMAGENTA : String := "\x1b[35m"

/-- colorama `Fore.CYAN`. -/
def foreCYAN : String := "\x1b[36m"

/-- colorama `Fore.WHITE`. -/
def foreWHITE : String := "\x1b[37m"

/-- colorama `Style.BRIGHT`. -/
def styleBRIGHT : String := "\x1b[1m"

/-- colorama `Style.DIM`. -/
def styleDIM : String := "\x1b[2m"

/-- colorama `Style.RESET_ALL`. -/
def styleRESET : String := "\x1b[0m"

/-- The ordering used by `children.sort(key=lambda p: p.pid)` and
`self.root_processes.sort(key=lambda p: p.pid)` (source lines 196-201). -/
def pidLE (a b : ProcessInfo) : Prop := a.pid ≤ b.pid

instance : DecidableRel pidLE := fun a b => Int.decLe a.pid b.pid

instance : IsTotal ProcessInfo pidLE := ⟨fun a b => Int.le_total a.pid b.pid⟩

instance : IsTrans ProcessInfo pidLE := ⟨fun _ _ _ h h2 => le_trans h h2⟩

/-- Embeds the membership test `proc.ppid in self.processes`
(source line 189): is `q` a key of the pid dict? -/
def pidPresent (procs : List ProcessInfo) (q : Int) : Bool :=
  procs.any (fun p => p.pid == q)

/-- Embeds the dict lookup `self.processes[proc.ppid]` (source line 190).
Under unique pids `find?` returns exactly the dict entry. -/
def parentOf (procs : List ProcessInfo) (r : ProcessInfo) : Option ProcessInfo :=
  procs.find? (fun p => p.pid == r.ppid)

/-- The child list `build_tree` leaves on the node `parent`
(source lines 187-198): every record whose declared ppid is
`parent`'s pid is appended during the first pass, and the list is then
sorted ascending by pid.  Under unique pids the dict-iteration append
order is irrelevant after sorting, so the list is the sorted filter. -/
def builtChildren (procs : List ProcessInfo) (parent : ProcessInfo) : List ProcessInfo :=
  List.insertionSort pidLE (procs.filter (fun c => c.ppid == parent.pid))

/-- The `self.root_processes` list after `build_tree` (source lines
188-194 and 200-201): records whose ppid is not a key of the pid dict,
sorted ascending by pid. -/
def root_processes (procs : List ProcessInfo) : List ProcessInfo :=
  List.insertionSort pidLE (procs.filter (fun c => !pidPresent procs c.ppid))

/-- Iterated parent lookup: follow the `ppid` side chain `k` steps.
`iterParent procs k r = some s` means the `k`-th ancestor of `r`
(via `parentOf`) exists and is `s`. -/
def iterParent (procs : List ProcessInfo) : Nat → ProcessInfo → Option ProcessInfo
  | 0, r => some r
  | n + 1, r =>
    match parentOf procs r with
    | some p => iterParent procs n p
    | none => none

/-- Does the ancestor chain of `r` reach a parentless record within
`n` additional steps? -/
def reachesRoot (procs : List ProcessInfo) : Nat → ProcessInfo → Bool
  | 0, r => (parentOf procs r).isNone
  | n + 1, r =>
    match parentOf procs r with
    | none => true
    | some p => reachesRoot procs n p

/-- Decidable statement that the parent-pid data contains no cycle:
every record's ancestor chain reaches a parentless record within
`procs.length` steps. -/
def acyclicB (procs : List ProcessInfo) : Bool :=
  procs.all (fun r => reachesRoot procs procs.length r)

mutual

/-- Pre-order walk of the subtree below `p` in the forest produced by
`build_tree`, with explicit fuel.  This is the verification-side
description of "the forest reachable from a node". -/
def walkFrom (procs : List ProcessInfo) : Nat → ProcessInfo → List ProcessInfo
  | 0, _ => []
  | n + 1, p => p :: walkAll procs n (builtChildren procs p)
termination_by n _ => (n, 0)

/-- Walk each tree in the list in order. -/
def walkAll (procs : List ProcessInfo) : Nat → List ProcessInfo → List ProcessInfo
  | _, [] => []
  | n, c :: cs => walkFrom procs n c ++ walkAll procs n cs
termination_by n cs => (n, cs.length + 1)

end

/-- The full forest walk from the roots left by `build_tree`.  Fuel
`procs.length + 1` is enough for any acyclic input, since an ancestor
chain visits each record at most once. -/
def forestWalk (procs : List ProcessInfo) : List ProcessInfo :=
  walkAll procs (procs.length + 1) (root_processes procs)

/- Concrete inputs used by counterexamples and witnesses. -/

/-- Record constructor for examples: resource fields are zero, the
command line equals the name (as `collect_processes` does when the
command line is empty, source lines 146-148). -/
def mkRec (pid ppid : Int) (name : String) : ProcessInfo :=
  ⟨pid, ppid, name, "user", "running", 0, 0, 1, 0, name⟩

/-- The spec's cycle example: `{(pid=1,ppid=2), (pid=2,ppid=1)}`. -/
def cycA : ProcessInfo := mkRec 1 2 "a"

/-- Second record of the cycle example. -/
def cycB : ProcessInfo := mkRec 2 1 "b"

/-- The two-record cyclic snapshot. -/
def cycProcs : List ProcessInfo := [cycA, cycB]

/-- A record that is its own parent. -/
def selfRec : ProcessInfo := mkRec 5 5 "self"

/-- Snapshot containing only the self-parented record. -/
def selfProcs : List ProcessInfo := [selfRec]

/-- The spec's acyclic example snapshot:
`{(1,0,init), (10,1,shell), (20,10,editor), (99,5000,orphan)}`. -/
def exProcs : List ProcessInfo :=
  [mkRec 1 0 "init", mkRec 10 1 "shell", mkRec 20 10 "editor", mkRec 99 5000 "orphan"]

/- Basic lemmas about the builder. -/

theorem mem_builtChildren {procs : List ProcessInfo} {p c : ProcessInfo} :
    c ∈ builtChildren procs p ↔ c ∈ procs ∧ c.ppid = p.pid := by
  unfold builtChildren
  rw [(List.perm_insertionSort pidLE _).mem_iff, List.mem_filter]
  simp

theorem mem_root_processes {procs : List ProcessInfo} {r : ProcessInfo} :
    r ∈ root_processes procs ↔ r ∈ procs ∧ pidPresent procs r.ppid = false := by
  unfold root_processes
  rw [(List.perm_insertionSort pidLE _).mem_iff, List.mem_filter]
  simp

theorem pidPresent_false_iff {procs : List ProcessInfo} {q : Int} :
    pidPresent procs q = false ↔ ∀ p ∈ procs, p.pid ≠ q := by
  unfold pidPresent
  simp [List.any_eq_true]

theorem parentOf_eq_none_iff {procs : List ProcessInfo} {r : ProcessInfo} :
    parentOf procs r = none ↔ pidPresent procs r.ppid = false := by
  unfold parentOf
  rw [List.find?_eq_none, pidPresent_false_iff]
  simp

/-- `C1` counterexample input evaluation: the cyclic two-record input
produces an empty root list, not the single root the claim asserts. -/
theorem cyc_roots_empty : root_processes cycProcs = [] := by decide

/-- C1: the claim asserts that for the input `{(1,2),(2,1)}` the builder
breaks the cycle and produces exactly one forest root.  In the code
`build_tree` has no cycle guard: each record's ppid is present, so both
are linked as children and `root_processes` stays empty. -/
theorem c1_counterexample :
    (root_processes cycProcs).length = 0 ∧ ¬ (root_processes cycProcs).length = 1 := by
  constructor
  · rw [cyc_roots_empty]; rfl
  · rw [cyc_roots_empty]; decide

/-- C1 (amended): `build_tree` terminates on every input (it is a
bounded loop over the dict), but performs no cycle-breaking: on the
cyclic input `{(1,2),(2,1)}` it produces zero forest roots and links
the two records as each other's children, so neither is reachable from
any root. -/
theorem c1_amended :
    root_processes cycProcs = [] ∧
    builtChildren cycProcs cycA = [cycB] ∧
    builtChildren cycProcs cycB = [cycA] := by
  refine ⟨cyc_roots_empty, ?_, ?_⟩ <;> decide

/-- C2 counterexample: a self-parented record (`pid = ppid = 5`) is not
made a forest root, contrary to the claim; it becomes its own child. -/
theorem c2_counterexample :
    root_processes selfProcs = [] ∧ selfRec ∈ builtChildren selfProcs selfRec := by
  constructor
  · decide
  · decide

/-- C2 (amended): a record becomes a forest root exactly when its
declared parent pid is not a pid present in the snapshot; a ppid of 0
yields a root only because no record with pid 0 is present, and a
self-parented record is not a root (its ppid is its own, present, pid)
but instead becomes its own child.  Children always have a present
parent pid. -/
theorem c2_amended :
    (∀ (procs : List ProcessInfo) (r : ProcessInfo),
      r ∈ root_processes procs ↔ r ∈ procs ∧ pidPresent procs r.ppid = false) ∧
    (∀ (procs : List ProcessInfo) (p c : ProcessInfo),
      c ∈ builtChildren procs p → c ∈ procs ∧ c.ppid = p.pid) := by
  refine ⟨fun procs r => mem_root_processes, fun procs p c h => mem_builtChildren.mp h⟩

/- Ancestor-chain lemmas used by the forest-completeness development. -/

theorem parentOf_mem {procs : List ProcessInfo} {r p : ProcessInfo}
    (h : parentOf procs r = some p) : p ∈ procs ∧ p.pid = r.ppid := by
  refine ⟨List.mem_of_find?_eq_some h, ?_⟩
  have := List.find?_some h
  simpa using this

theorem nodupPids_inj {procs : List ProcessInfo}
    (hnd : (procs.map (fun p => p.pid)).Nodup) {a b : ProcessInfo}
    (ha : a ∈ procs) (hb : b ∈ procs) (h : a.pid = b.pid) : a = b :=
  List.inj_on_of_nodup_map hnd ha hb h

theorem parentOf_eq_some {procs : List ProcessInfo}
    (hnd : (procs.map (fun p => p.pid)).Nodup) {r p : ProcessInfo}
    (hp : p ∈ procs) (hpid : p.pid = r.ppid) : parentOf procs r = some p := by
  unfold parentOf
  cases hfind : procs.find? (fun q => q.pid == r.ppid) with
  | none =>
    exact absurd hpid (by simpa using List.find?_eq_none.mp hfind p hp)
  | some q =>
    have hq : q ∈ procs := List.mem_of_find?_eq_some hfind
    have hqp : q.pid = r.ppid := by simpa using List.find?_some hfind
    exact congrArg some (nodupPids_inj hnd hq hp (hqp.trans hpid.symm))

theorem parentOf_of_child {procs : List ProcessInfo}
    (hnd : (procs.map (fun p => p.pid)).Nodup) {p c : ProcessInfo}
    (hp : p ∈ procs) (hc : c ∈ builtChildren procs p) : parentOf procs c = some p :=
  parentOf_eq_some hnd hp (mem_builtChildren.mp hc).2.symm

theorem iterParent_succ_eq (procs : List ProcessInfo) (n : Nat) (r : ProcessInfo) :
    iterParent procs (n + 1) r =
      match parentOf procs r with
      | some p => iterParent procs n p
      | none => none := rfl

theorem iterParent_succ_none {procs : List ProcessInfo} {r : ProcessInfo} (n : Nat)
    (hp : parentOf procs r = none) : iterParent procs (n + 1) r = none := by
  rw [iterParent_succ_eq, hp]

theorem iterParent_succ_some {procs : List ProcessInfo} {r p : ProcessInfo} (n : Nat)
    (hp : parentOf procs r = some p) : iterParent procs (n + 1) r = iterParent procs n p := by
  rw [iterParent_succ_eq, hp]

theorem iterParent_add (procs : List ProcessInfo) (a b : Nat) (r : ProcessInfo) :
    iterParent procs (a + b) r = (iterParent procs a r).bind (iterParent procs b) := by
  induction a generalizing r with
  | zero => simp [iterParent]
  | succ n ih =>
    have heq : n + 1 + b = (n + b) + 1 := by omega
    rw [heq]
    cases hp : parentOf procs r with
    | none => rw [iterParent_succ_none _ hp, iterParent_succ_none _ hp]; rfl
    | some p => rw [iterParent_succ_some _ hp, iterParent_succ_some _ hp]; exact ih p

theorem iterParent_one (procs : List ProcessInfo) (r : ProcessInfo) :
    iterParent procs 1 r = parentOf procs r := by
  cases hp : parentOf procs r with
  | none => exact iterParent_succ_none 0 hp
  | some p => rw [iterParent_succ_some 0 hp]; rfl

theorem iterParent_succ_last (procs : List ProcessInfo) (n : Nat) (r : ProcessInfo) :
    iterParent procs (n + 1) r = (iterParent procs n r).bind (parentOf procs) := by
  rw [iterParent_add procs n 1 r]
  cases iterParent procs n r with
  | none => rfl
  | some p => simp [iterParent_one]

theorem iterParent_mem {procs : List ProcessInfo} {k : Nat} {r s : ProcessInfo}
    (hr : r ∈ procs) (h : iterParent procs k r = some s) : s ∈ procs := by
  induction k generalizing r with
  | zero => simp [iterParent] at h; exact h ▸ hr
  | succ n ih =>
    unfold iterParent at h
    cases hp : parentOf procs r with
    | none => rw [hp] at h; exact absurd h (by simp)
    | some p =>
      rw [hp] at h
      exact ih (parentOf_mem hp).1 h

theorem reachesRoot_false_of_cycle {procs : List ProcessInfo} :
    ∀ (n : Nat) (r : ProcessInfo),
      (∃ m, iterParent procs (m + 1) r = some r) → reachesRoot procs n r = false := by
  intro n
  induction n with
  | zero =>
    intro r ⟨m, hm⟩
    unfold iterParent at hm
    cases hp : parentOf procs r with
    | none => rw [hp] at hm; exact absurd hm (by simp)
    | some p => simp [reachesRoot, hp]
  | succ n ih =>
    intro r ⟨m, hm⟩
    cases hp : parentOf procs r with
    | none => rw [iterParent_succ_none _ hp] at hm; exact absurd hm (by simp)
    | some p =>
      rw [iterParent_succ_some _ hp] at hm
      have hcyc : iterParent procs (m + 1) p = some p := by
        rw [iterParent_succ_last, hm]
        simpa using hp
      simp only [reachesRoot, hp]
      exact ih p ⟨m, hcyc⟩

theorem noCycle {procs : List ProcessInfo} (hac : acyclicB procs = true) :
    ∀ (m : Nat) (r : ProcessInfo), iterParent procs (m + 1) r ≠ some r := by
  intro m r hm
  have hrmem : r ∈ procs := by
    have hm0 := hm
    rw [iterParent_succ_last] at hm0
    cases hq : iterParent procs m r with
    | none => rw [hq] at hm0; exact absurd hm0 (by simp)
    | some q =>
      rw [hq] at hm0
      exact (parentOf_mem hm0).1
  have hfalse := reachesRoot_false_of_cycle procs.length r ⟨m, hm⟩
  have htrue : reachesRoot procs procs.length r = true := by
    have := List.all_eq_true.mp hac r hrmem
    simpa using this
  rw [htrue] at hfalse
  exact absurd hfalse (by simp)

theorem iterParent_unique {procs : List ProcessInfo} (hac : acyclicB procs = true)
    {a b : Nat} {r p : ProcessInfo}
    (ha : iterParent procs a r = some p) (hb : iterParent procs b r = some p) : a = b := by
  by_contra hne
  rcases Nat.lt_or_ge a b with hlt | hge
  · obtain ⟨d, hd⟩ := Nat.exists_eq_add_of_lt hlt
    rw [hd, show a + d + 1 = a + (d + 1) from by omega, iterParent_add, ha] at hb
    rw [Option.some_bind] at hb
    exact noCycle hac d p hb
  · have hlt : b < a := Nat.lt_of_le_of_ne hge (fun h => hne h.symm)
    obtain ⟨d, hd⟩ := Nat.exists_eq_add_of_lt hlt
    rw [hd, show b + d + 1 = b + (d + 1) from by omega, iterParent_add, hb] at ha
    rw [Option.some_bind] at ha
    exact noCycle hac d p ha

/- Walk membership and uniqueness. -/

theorem mem_walkAll {procs : List ProcessInfo} {n : Nat} {cs : List ProcessInfo}
    {r : ProcessInfo} : r ∈ walkAll procs n cs ↔ ∃ c ∈ cs, r ∈ walkFrom procs n c := by
  induction cs with
  | nil => simp [walkAll]
  | cons c cs ih =>
    rw [walkAll, List.mem_append, ih]
    constructor
    · rintro (h | ⟨c', hc', h⟩)
      · exact ⟨c, List.mem_cons_self c cs, h⟩
      · exact ⟨c', List.mem_cons_of_mem c hc', h⟩
    · rintro ⟨c', hc', h⟩
      rcases List.mem_cons.mp hc' with rfl | hc'
      · exact Or.inl h
      · exact Or.inr ⟨c', hc', h⟩

theorem mem_walkFrom_iff {procs : List ProcessInfo}
    (hnd : (procs.map (fun p => p.pid)).Nodup) :
    ∀ (fuel : Nat) {p r : ProcessInfo}, p ∈ procs →
      (r ∈ walkFrom procs fuel p ↔ r ∈ procs ∧ ∃ k < fuel, iterParent procs k r = some p) := by
  intro fuel
  induction fuel with
  | zero => intro p r _; simp [walkFrom]
  | succ n ih =>
    intro p r hp
    rw [walkFrom, List.mem_cons, mem_walkAll]
    constructor
    · rintro (rfl | ⟨c, hc, hwf⟩)
      · exact ⟨hp, 0, Nat.succ_pos n, rfl⟩
      · have hcmem : c ∈ procs := (mem_builtChildren.mp hc).1
        obtain ⟨hr, k, hk, hit⟩ := (ih hcmem).mp hwf
        refine ⟨hr, k + 1, Nat.succ_lt_succ hk, ?_⟩
        rw [iterParent_succ_last, hit, Option.some_bind]
        exact parentOf_of_child hnd hp hc
    · rintro ⟨hr, k, hk, hit⟩
      cases k with
      | zero =>
        exact Or.inl (by simpa [iterParent] using hit)
      | succ j =>
        rw [iterParent_succ_last] at hit
        cases hq : iterParent procs j r with
        | none => rw [hq] at hit; exact absurd hit (by simp)
        | some c =>
          rw [hq, Option.some_bind] at hit
          have hcmem : c ∈ procs := iterParent_mem hr hq
          have hc : c ∈ builtChildren procs p :=
            mem_builtChildren.mpr ⟨hcmem, (parentOf_mem hit).2.symm⟩
          exact Or.inr ⟨c, hc, (ih hcmem).mpr ⟨hr, j, Nat.lt_of_succ_lt_succ hk, hq⟩⟩

theorem builtChildren_nodup {procs : List ProcessInfo}
    (hnd : (procs.map (fun p => p.pid)).Nodup) (p : ProcessInfo) :
    (builtChildren procs p).Nodup := by
  have h1 : procs.Nodup := List.Nodup.of_map _ hnd
  exact ((List.perm_insertionSort pidLE _).nodup_iff).mpr (h1.filter _)

theorem root_processes_nodup {procs : List ProcessInfo}
    (hnd : (procs.map (fun p => p.pid)).Nodup) : (root_processes procs).Nodup := by
  have h1 : procs.Nodup := List.Nodup.of_map _ hnd
  exact ((List.perm_insertionSort pidLE _).nodup_iff).mpr (h1.filter _)

theorem walkFrom_disjoint {procs : List ProcessInfo}
    (hnd : (procs.map (fun p => p.pid)).Nodup) (hac : acyclicB procs = true)
    {c c' : ProcessInfo} (hc : c ∈ procs) (hc' : c' ∈ procs) (hne : c ≠ c')
    (hpar : parentOf procs c = parentOf procs c') :
    ∀ {n n' : Nat} {r : ProcessInfo},
      r ∈ walkFrom procs n c → r ∈ walkFrom procs n' c' → False := by
  have aux : ∀ {x y : ProcessInfo} {kx ky : Nat} {r : ProcessInfo}, x ∈ procs → y ∈ procs →
      parentOf procs x = parentOf procs y →
      iterParent procs kx r = some x → iterParent procs ky r = some y → kx < ky → False := by
    intro x y kx ky r hx hy hxy hitx hity hlt
    obtain ⟨d, hd⟩ := Nat.exists_eq_add_of_lt hlt
    rw [hd, show kx + d + 1 = kx + (d + 1) from by omega, iterParent_add, hitx,
      Option.some_bind] at hity
    cases hpx : parentOf procs x with
    | none => rw [iterParent_succ_none d hpx] at hity; exact absurd hity (by simp)
    | some q =>
      rw [iterParent_succ_some d hpx] at hity
      have hcyc : iterParent procs (d + 1) q = some q := by
        rw [iterParent_succ_last, hity, Option.some_bind, ← hxy]
        exact hpx
      exact noCycle hac d q hcyc
  intro n n' r hr hr'
  obtain ⟨hrm, k, _, hit⟩ := (mem_walkFrom_iff hnd n hc).mp hr
  obtain ⟨_, k', _, hit'⟩ := (mem_walkFrom_iff hnd n' hc').mp hr'
  rcases Nat.lt_trichotomy k k' with hlt | heq | hgt
  · exact aux hc hc' hpar hit hit' hlt
  · exact hne (by rw [heq] at hit; exact Option.some.inj (hit.symm.trans hit'))
  · exact aux hc' hc hpar.symm hit' hit hgt

theorem walkAll_zero (procs : List ProcessInfo) (cs : List ProcessInfo) :
    walkAll procs 0 cs = [] := by
  induction cs with
  | nil => simp [walkAll]
  | cons c cs ih => rw [walkAll, ih]; simp [walkFrom]

theorem walk_nodup {procs : List ProcessInfo}
    (hnd : (procs.map (fun p => p.pid)).Nodup) (hac : acyclicB procs = true) :
    ∀ n : Nat,
      (∀ p ∈ procs, (walkFrom procs n p).Nodup) ∧
      (∀ (cs : List ProcessInfo) (po : Option ProcessInfo), cs.Nodup →
        (∀ c ∈ cs, c ∈ procs) → (∀ c ∈ cs, parentOf procs c = po) →
        (walkAll procs n cs).Nodup) := by
  intro n
  induction n with
  | zero =>
    exact ⟨fun p _ => by simp [walkFrom], fun cs po _ _ _ => by rw [walkAll_zero]; exact List.nodup_nil⟩
  | succ n ih =>
    obtain ⟨ih1, ih2⟩ := ih
    have hcomp1 : ∀ p ∈ procs, (walkFrom procs (n + 1) p).Nodup := by
      intro p hp
      rw [walkFrom, List.nodup_cons]
      constructor
      · intro hmem
        obtain ⟨c, hc, hwf⟩ := mem_walkAll.mp hmem
        obtain ⟨_, k, _, hit⟩ :=
          (mem_walkFrom_iff hnd n (mem_builtChildren.mp hc).1).mp hwf
        have hcyc : iterParent procs (k + 1) p = some p := by
          rw [iterParent_succ_last, hit, Option.some_bind]
          exact parentOf_of_child hnd hp hc
        exact noCycle hac k p hcyc
      · exact ih2 (builtChildren procs p) (some p) (builtChildren_nodup hnd p)
          (fun c hc => (mem_builtChildren.mp hc).1)
          (fun c hc => parentOf_of_child hnd hp hc)
    refine ⟨hcomp1, ?_⟩
    intro cs po hcs hmem hpar
    induction cs with
    | nil => simp [walkAll]
    | cons c cs ihcs =>
      rw [walkAll]
      have hcmem : c ∈ procs := hmem c (List.mem_cons_self c cs)
      refine List.Nodup.append (hcomp1 c hcmem)
        (ihcs (List.nodup_cons.mp hcs).2
          (fun x hx => hmem x (List.mem_cons_of_mem c hx))
          (fun x hx => hpar x (List.mem_cons_of_mem c hx))) ?_
      intro r hr hmem2
      obtain ⟨c', hc', hr'⟩ := mem_walkAll.mp hmem2
      have hne : c ≠ c' := fun h => (List.nodup_cons.mp hcs).1 (h ▸ hc')
      have hpp : parentOf procs c = parentOf procs c' := by
        rw [hpar c (List.mem_cons_self c cs), hpar c' (List.mem_cons_of_mem c hc')]
      exact walkFrom_disjoint hnd hac hcmem
        (hmem c' (List.mem_cons_of_mem c hc')) hne hpp hr hr'

theorem forestWalk_nodup {procs : List ProcessInfo}
    (hnd : (procs.map (fun p => p.pid)).Nodup) (hac : acyclicB procs = true) :
    (forestWalk procs).Nodup :=
  (walk_nodup hnd hac (procs.length + 1)).2 (root_processes procs) none
    (root_processes_nodup hnd)
    (fun c hc => (mem_root_processes.mp hc).1)
    (fun c hc => parentOf_eq_none_iff.mpr (mem_root_processes.mp hc).2)

theorem reachesRoot_chain {procs : List ProcessInfo} :
    ∀ (n : Nat) (r : ProcessInfo), r ∈ procs → reachesRoot procs n r = true →
      ∃ k ≤ n, ∃ p, iterParent procs k r = some p ∧ parentOf procs p = none := by
  intro n
  induction n with
  | zero =>
    intro r hr h
    simp only [reachesRoot, Option.isNone_iff_eq_none] at h
    exact ⟨0, Nat.le_refl 0, r, rfl, h⟩
  | succ n ih =>
    intro r hr h
    cases hp : parentOf procs r with
    | none => exact ⟨0, Nat.zero_le _, r, rfl, hp⟩
    | some q =>
      simp only [reachesRoot, hp] at h
      obtain ⟨k, hk, p, hit, hnone⟩ := ih q (parentOf_mem hp).1 h
      exact ⟨k + 1, Nat.succ_le_succ hk, p, by rw [iterParent_succ_some k hp]; exact hit, hnone⟩

theorem mem_forestWalk {procs : List ProcessInfo}
    (hnd : (procs.map (fun p => p.pid)).Nodup) (hac : acyclicB procs = true)
    {r : ProcessInfo} : r ∈ forestWalk procs ↔ r ∈ procs := by
  constructor
  · intro h
    obtain ⟨root, hroot, hwf⟩ := mem_walkAll.mp h
    exact ((mem_walkFrom_iff hnd _ (mem_root_processes.mp hroot).1).mp hwf).1
  · intro hr
    have hreach : reachesRoot procs procs.length r = true := by
      have := List.all_eq_true.mp hac r hr
      simpa using this
    obtain ⟨k, hk, p, hit, hnone⟩ := reachesRoot_chain procs.length r hr hreach
    have hpmem : p ∈ procs := iterParent_mem hr hit
    have hproot : p ∈ root_processes procs :=
      mem_root_processes.mpr ⟨hpmem, parentOf_eq_none_iff.mp hnone⟩
    refine mem_walkAll.mpr ⟨p, hproot, ?_⟩
    exact (mem_walkFrom_iff hnd _ hpmem).mpr ⟨hr, k, Nat.lt_succ_of_le hk, hit⟩

theorem forestWalk_perm {procs : List ProcessInfo}
    (hnd : (procs.map (fun p => p.pid)).Nodup) (hac : acyclicB procs = true) :
    (forestWalk procs).Perm procs :=
  (List.perm_ext_iff_of_nodup (forestWalk_nodup hnd hac) (List.Nodup.of_map _ hnd)).mpr
    (fun _ => mem_forestWalk hnd hac)

/-- C3 counterexample: the cyclic input has unique pids, yet the forest
walk from the roots is empty: the record `(pid=1, ppid=2)` appears in
zero nodes reachable from the roots, not exactly one. -/
theorem c3_counterexample :
    (cycProcs.map (fun p => p.pid)).Nodup ∧ cycA ∈ cycProcs ∧
      forestWalk cycProcs = [] ∧ cycA ∉ forestWalk cycProcs := by
  have hw : forestWalk cycProcs = [] := by
    rw [forestWalk, cyc_roots_empty, walkAll]
  exact ⟨by decide, by decide, hw, by rw [hw]; exact List.not_mem_nil cycA⟩

/-- C3 (amended): for every input record set with unique pids *whose
parent chains are acyclic* (every record's ancestor chain reaches a
parentless record), after `build_tree` each record appears in exactly
one node reachable from the roots, no record is the child of two
distinct parents, and no record is its own strict ancestor.  The
acyclicity hypothesis is necessary: `c3_counterexample` shows a
unique-pid input whose records are reachable from no root. -/
theorem c3_amended (procs : List ProcessInfo)
    (hnd : (procs.map (fun p => p.pid)).Nodup) (hac : acyclicB procs = true) :
    (∀ r ∈ procs, List.count r (forestWalk procs) = 1) ∧
    (∀ p₁ p₂ c : ProcessInfo, p₁ ∈ procs → p₂ ∈ procs →
      c ∈ builtChildren procs p₁ → c ∈ builtChildren procs p₂ → p₁ = p₂) ∧
    (∀ (m : Nat) (r : ProcessInfo), iterParent procs (m + 1) r ≠ some r) := by
  refine ⟨?_, ?_, noCycle hac⟩
  · intro r hr
    rw [(forestWalk_perm hnd hac).count_eq]
    exact List.count_eq_one_of_mem (List.Nodup.of_map _ hnd) hr
  · intro p₁ p₂ c h1 h2 hc1 hc2
    exact nodupPids_inj hnd h1 h2
      ((mem_builtChildren.mp hc1).2.symm.trans (mem_builtChildren.mp hc2).2)

/-- Closed instance of `c3_amended` on the spec's four-record example,
discharging both hypotheses concretely. -/
theorem c3_witness :
    ((exProcs.map (fun p => p.pid)).Nodup ∧ acyclicB exProcs = true) ∧
    ((∀ r ∈ exProcs, List.count r (forestWalk exProcs) = 1) ∧
     (∀ p₁ p₂ c : ProcessInfo, p₁ ∈ exProcs → p₂ ∈ exProcs →
       c ∈ builtChildren exProcs p₁ → c ∈ builtChildren exProcs p₂ → p₁ = p₂) ∧
     (∀ (m : Nat) (r : ProcessInfo), iterParent exProcs (m + 1) r ≠ some r)) :=
  ⟨⟨by decide, by decide⟩, c3_amended exProcs (by decide) (by decide)⟩

/- Rendering: display_tree (source lines 203-275). -/

/-- One-decimal formatting of a Python float (`f-string` `:.1f`),
modelled on exact rationals with round-half-to-even.  Used only inside
display strings; no claim depends on its rounding at a tie. -/
def fmt1 (q : Rat) : String :=
  let scaled : Rat := q * 10
  let fl : Int := Rat.floor scaled
  let frac : Rat := scaled - (fl : Rat)
  let n : Int :=
    if (1 : Rat)/2 < frac then fl + 1
    else if frac < (1 : Rat)/2 then fl
    else if fl % 2 = 0 then fl else fl + 1
  let sign := if n < 0 then "-" else ""
  sign ++ toString (n.natAbs / 10) ++ "." ++ toString (n.natAbs % 10)

/-- Embeds `ProcessInfo.format_memory` (source lines 54-58). -/
def format_memory (m : Rat) : String :=
  if 1024 ≤ m then fmt1 (m / 1024) ++ "GB" else fmt1 m ++ "MB"

/-- Embeds `ProcessInfo.format_uptime` (source lines 60-67).  The
current wall-clock time `time.time()` is an explicit argument `now`;
Python float floor-division and modulo are exact floor operations here. -/
def format_uptime (create_time now : Rat) : String :=
  let uptime := now - create_time
  let hours : Int := Rat.floor (uptime / 3600)
  let minutes : Int := Rat.floor ((uptime - 3600 * (Rat.floor (uptime / 3600) : Rat)) / 60)
  if 0 < hours then toString hours ++ "h" ++ toString minutes ++ "m"
  else toString minutes ++ "m"

/-- Status-based name colour (source lines 233-240). -/
def statusColor (status : String) : String :=
  if status = "running" then foreGREEN
  else if status = "sleeping" then foreCYAN
  else if status = "stopped" ∨ status = "zombie" then foreRED
  else foreWHITE

/-- CPU severity colour (source line 248): strictly above 50 red,
strictly above 10 green, else white. -/
def cpuColor (c : Rat) : String :=
  if 50 < c then foreRED else if 10 < c then foreGREEN else foreWHITE

/-- Memory severity colour (source line 249): strictly above 500 red
(high), strictly above 100 yellow (medium), else white (normal). -/
def memColor (m : Rat) : String :=
  if 500 < m then foreRED else if 100 < m then foreYELLOW else foreWHITE

/-- The sibling connector (source line 230). -/
def connector (is_last : Bool) : String := if is_last then "└── " else "├── "

/-- The primary line printed for a visited node: the `output` string
built incrementally through source lines 229-260. -/
def primaryLine (show_resources verbose : Bool) (p : ProcessInfo) (pre : String)
    (is_last : Bool) (now : Rat) : String :=
  let out1 := pre ++ connector is_last ++ statusColor p.status ++ styleBRIGHT ++ p.name ++
    styleRESET ++ " " ++ foreYELLOW ++ "[PID: " ++ toString p.pid ++ "]" ++ styleRESET
  let out2 :=
    if show_resources then
      out1 ++ " " ++ cpuColor p.cpu_percent ++ "CPU: " ++ fmt1 p.cpu_percent ++ "%" ++
        styleRESET ++ " " ++ memColor p.memory_mb ++ "MEM: " ++ format_memory p.memory_mb ++
        styleRESET
    else out1
  if verbose then
    out2 ++ " " ++ foreMAGENTA ++ "User: " ++ p.username ++ styleRESET ++ " " ++
      foreBLUE ++ "Threads: " ++ toString p.num_threads ++ styleRESET ++ " " ++
      foreCYAN ++ "Uptime: " ++ format_uptime p.create_time now ++ styleRESET
  else out2

/-- The displayed command line (source lines 265-268):
`cmd_display = cmdline[:80]`, with `"..."` appended when
`len(cmdline) > 80`.  Python slices by code point, modelled by a
character-list take. -/
def cmd_display (p : ProcessInfo) : String :=
  String.mk (p.cmdline.toList.take 80) ++ if 80 < p.cmdline.length then "..." else ""

/-- The secondary command-line line of verbose mode (source lines
263-269): the `cmd_prefix` plus the truncated command line. -/
def secondaryLine (p : ProcessInfo) (pre : String) (is_last : Bool) : String :=
  pre ++ (if is_last then "    " else "│   ") ++ foreWHITE ++ styleDIM ++ "└─ " ++
    cmd_display p ++ styleRESET

/-- The lines printed for a single visited node (source lines 229-269):
one primary line, plus in verbose mode a secondary command-line line
unless the command line equals the name. -/
def nodeLines (show_resources verbose : Bool) (p : ProcessInfo) (pre : String)
    (is_last : Bool) (now : Rat) : List String :=
  if verbose = true ∧ p.cmdline ≠ p.name then
    [primaryLine show_resources verbose p pre is_last now, secondaryLine p pre is_last]
  else [primaryLine show_resources verbose p pre is_last now]

/-- A finite, possibly cyclic structure of `ProcessInfo` nodes, as the
renderer may receive from sources other than the builder: vertices are
indices, each carrying a record and a list of child vertices. -/
structure NodeGraph (n : Nat) where
  info : Fin n → ProcessInfo
  children : Fin n → List (Fin n)

/-- All pids occurring in the graph. -/
def pidUniv {n : Nat} (g : NodeGraph n) : Finset Int :=
  Finset.image (fun v => (g.info v).pid) Finset.univ

/-- Frames `(node, current prefix, is_last)` for a sibling group,
implementing `is_last = (i == len(siblings) - 1)` of the enumerate
loops (source lines 219-221 and 272-275). -/
def mkFrames {α : Type} : List α → String → List (α × String × Bool)
  | [], _ => []
  | [c], pre => [(c, pre, true)]
  | c :: c2 :: rest, pre => (c, pre, false) :: mkFrames (c2 :: rest) pre

theorem sdiff_insert_card_lt {s t : Finset Int} {a : Int} (ha : a ∈ s) (hna : a ∉ t) :
    (s \ insert a t).card < (s \ t).card := by
  have heq : s \ insert a t = (s \ t).erase a := by
    ext x
    simp only [Finset.mem_sdiff, Finset.mem_insert, Finset.mem_erase]
    tauto
  rw [heq]
  exact Finset.card_erase_lt_of_mem (Finset.mem_sdiff.mpr ⟨ha, hna⟩)

/-- The recursion of `display_tree` (source lines 203-275) as a
work-list machine: the Python call stack is the frame list, and the
mutated `visited` set of pids is threaded left-to-right exactly as in
the source.  Each emitted element pairs the visited vertex with the
lines printed for it. -/
def renderSteps {n : Nat} (g : NodeGraph n) (show_resources verbose : Bool) (now : Rat) :
    Finset Int → List (Fin n × String × Bool) → List (Fin n × List String)
  | _, [] => []
  | visited, (v, pre, il) :: rest =>
    if h : (g.info v).pid ∈ visited then
      renderSteps g show_resources verbose now visited rest
    else
      (v, nodeLines show_resources verbose (g.info v) pre il now) ::
        renderSteps g show_resources verbose now (insert (g.info v).pid visited)
          (mkFrames (g.children v) (pre ++ (if il then "    " else "│   ")) ++ rest)
termination_by visited frames => ((pidUniv g \ visited).card, frames.length)
decreasing_by
  · apply Prod.Lex.right
    simp
  · apply Prod.Lex.left
    exact sdiff_insert_card_lt (Finset.mem_image.mpr ⟨v, Finset.mem_univ v, rfl⟩) h

/-- Top of `display_tree` with `process=None` (source lines 214-222):
one fresh visited set, shared by every root. -/
def display_forest {n : Nat} (g : NodeGraph n) (roots : List (Fin n))
    (show_resources verbose : Bool) (now : Rat) : List (Fin n × List String) :=
  renderSteps g show_resources verbose now ∅ (mkFrames roots "")

theorem renderSteps_props {n : Nat} (g : NodeGraph n) (sr vb : Bool) (now : Rat) :
    ∀ (visited : Finset Int) (frames : List (Fin n × String × Bool)),
      (∀ s ∈ renderSteps g sr vb now visited frames, (g.info s.fst).pid ∉ visited) ∧
      ((renderSteps g sr vb now visited frames).map (fun s => (g.info s.fst).pid)).Nodup ∧
      (renderSteps g sr vb now visited frames).length ≤ (pidUniv g \ visited).card := by
  intro visited frames
  induction visited, frames using renderSteps.induct g sr vb now with
  | case1 visited =>
    simp [renderSteps]
  | case2 visited v pre il rest h ih =>
    rw [renderSteps]
    simp only [dif_pos h]
    exact ih
  | case3 visited v pre il rest h ih =>
    obtain ⟨ih1, ih2, ih3⟩ := ih
    rw [renderSteps]
    simp only [dif_neg h]
    refine ⟨?_, ?_, ?_⟩
    · intro s hs
      rcases List.mem_cons.mp hs with rfl | hs
      · exact h
      · intro hmem
        exact ih1 s hs (Finset.mem_insert_of_mem hmem)
    · rw [List.map_cons, List.nodup_cons]
      refine ⟨?_, ih2⟩
      intro hmem
      obtain ⟨s, hs, hps⟩ := List.mem_map.mp hmem
      exact ih1 s hs (hps ▸ Finset.mem_insert_self _ _)
    · rw [List.length_cons]
      have hlt : (pidUniv g \ insert (g.info v).pid visited).card < (pidUniv g \ visited).card :=
        sdiff_insert_card_lt (Finset.mem_image.mpr ⟨v, Finset.mem_univ v, rfl⟩) h
      exact Nat.succ_le_of_lt (Nat.lt_of_le_of_lt ih3 hlt)

/-- A one-vertex graph whose node lists itself as its own child: a
cyclic structure as the renderer may receive from sources other than
the builder. -/
def loopGraph : NodeGraph 1 :=
  ⟨fun _ => mkRec 1 0 "a", fun v => [v]⟩

/-- C4: `display_tree` maintains a single visited set of pids across
the entire traversal — `display_forest` passes one empty set shared by
all roots, threading it left-to-right.  A frame whose pid is already
in the set emits nothing and its subtree is never entered (first
conjunct); hence every emitted pid was unvisited, each pid is emitted
at most once, and the emitted-node count is bounded by the number of
distinct pids (for the full forest call, by `n`), which is exactly the
termination measure — for arbitrary finite node structures, including
cyclic and shared-child ones. -/
theorem c4_render_guard :
    ∀ (n : Nat) (g : NodeGraph n) (sr vb : Bool) (now : Rat)
      (visited : Finset Int) (v : Fin n) (pre : String) (il : Bool)
      (rest : List (Fin n × String × Bool)),
      ((g.info v).pid ∈ visited →
        renderSteps g sr vb now visited ((v, pre, il) :: rest) =
          renderSteps g sr vb now visited rest) ∧
      (∀ s ∈ renderSteps g sr vb now visited rest, (g.info s.fst).pid ∉ visited) ∧
      ((renderSteps g sr vb now visited rest).map (fun s => (g.info s.fst).pid)).Nodup ∧
      ∀ roots : List (Fin n),
        ((display_forest g roots sr vb now).map (fun s => (g.info s.fst).pid)).Nodup ∧
        (display_forest g roots sr vb now).length ≤ n := by
  intro n g sr vb now visited v pre il rest
  refine ⟨?_, (renderSteps_props g sr vb now visited rest).1,
    (renderSteps_props g sr vb now visited rest).2.1, ?_⟩
  · intro hmem
    rw [renderSteps]
    simp only [dif_pos hmem]
  · intro roots
    refine ⟨(renderSteps_props g sr vb now ∅ (mkFrames roots "")).2.1, ?_⟩
    refine Nat.le_trans (renderSteps_props g sr vb now ∅ (mkFrames roots "")).2.2 ?_
    rw [Finset.sdiff_empty]
    refine Nat.le_trans (Finset.card_image_le) ?_
    rw [Finset.card_univ, Fintype.card_fin]

/-- Closed instance of `c4_render_guard` on the self-loop graph, with
the already-visited hypothesis discharged concretely. -/
theorem c4_witness :
    ((loopGraph.info 0).pid ∈ ({1} : Finset Int)) ∧
    ((loopGraph.info 0).pid ∈ ({1} : Finset Int) →
      renderSteps loopGraph false false 0 {1} [(0, "", true)] =
        renderSteps loopGraph false false 0 {1} []) ∧
    (∀ s ∈ renderSteps loopGraph false false 0 {1} [],
      (loopGraph.info s.fst).pid ∉ ({1} : Finset Int)) ∧
    ((renderSteps loopGraph false false 0 {1} []).map
      (fun s => (loopGraph.info s.fst).pid)).Nodup ∧
    ∀ roots : List (Fin 1),
      ((display_forest loopGraph roots false false 0).map
        (fun s => (loopGraph.info s.fst).pid)).Nodup ∧
      (display_forest loopGraph roots false false 0).length ≤ 1 :=
  ⟨by decide, (c4_render_guard 1 loopGraph false false 0 {1} 0 "" true []).1,
    (c4_render_guard 1 loopGraph false false 0 {1} 0 "" true []).2.1,
    (c4_render_guard 1 loopGraph false false 0 {1} 0 "" true []).2.2.1,
    (c4_render_guard 1 loopGraph false false 0 {1} 0 "" true []).2.2.2⟩

/- Determinism, ordering, and styling claims about the renderer. -/

theorem rat_floor_eq_int_floor (q : Rat) : Rat.floor q = ⌊q⌋ :=
  (Rat.floor_def' q).trans Rat.floor_def.symm

theorem format_uptime_0_0 : format_uptime 0 0 = "0m" := by
  simp only [format_uptime, rat_floor_eq_int_floor]
  norm_num
  decide

theorem format_uptime_0_60 : format_uptime 0 60 = "1m" := by
  simp only [format_uptime, rat_floor_eq_int_floor]
  norm_num
  decide

theorem nodeLines_verbose_false (sr : Bool) (p : ProcessInfo) (pre : String)
    (il : Bool) (now₁ now₂ : Rat) :
    nodeLines sr false p pre il now₁ = nodeLines sr false p pre il now₂ := by
  simp [nodeLines, primaryLine]

/-- The record used by the determinism counterexample: created at time
0, command line equal to the name. -/
def uptimeRec : ProcessInfo := mkRec 1 0 "a"

/-- One-node graph for the determinism counterexample. -/
def uptimeGraph : NodeGraph 1 := ⟨fun _ => uptimeRec, fun _ => []⟩

theorem display_uptimeGraph (now : Rat) :
    display_forest uptimeGraph [0] false true now =
      [(0, nodeLines false true uptimeRec "" true now)] := by
  rw [display_forest, show mkFrames [(0 : Fin 1)] "" = [((0 : Fin 1), "", true)] from rfl,
    renderSteps, dif_neg (by decide)]
  congr 1
  rw [show uptimeGraph.children 0 = [] from rfl]
  simp [mkFrames, renderSteps]

/-- C6 counterexample: rendering the same one-node forest with the same
data and flags (verbose on) at two different wall-clock instants yields
different output, because the primary line embeds `format_uptime`,
which reads the current time.  "Byte-identical output for same data and
flags" therefore fails as stated. -/
theorem c6_counterexample :
    display_forest uptimeGraph [0] false true 0 ≠ display_forest uptimeGraph [0] false true 60 := by
  intro heq
  rw [display_uptimeGraph 0, display_uptimeGraph 60] at heq
  have hlines : nodeLines false true uptimeRec "" true 0 =
      nodeLines false true uptimeRec "" true 60 := by
    have := List.head_eq_of_cons_eq heq
    exact congrArg Prod.snd this
  simp only [nodeLines, primaryLine, uptimeRec, mkRec, format_uptime_0_0,
    format_uptime_0_60] at hlines
  exact absurd hlines (by decide)

theorem mkFrames_is_last (α : Type) (cs : List α) (pre : String) :
    (mkFrames cs pre).map (fun f => f.snd.snd) =
      if cs.length = 0 then [] else List.replicate (cs.length - 1) false ++ [true] := by
  induction cs with
  | nil => simp [mkFrames]
  | cons c cs ih =>
    cases cs with
    | nil => simp [mkFrames]
    | cons c2 rest =>
      rw [mkFrames, List.map_cons, ih]
      simp [List.replicate_succ]

/-- C6 (amended): rendering is a pure function of the forest, the
flags, and the current wall-clock time, so two renders agree whenever
all three agree; with verbose off the output is independent of the
wall-clock time (with verbose on it is not: `c6_counterexample`);
children of every node and the root list are in ascending-pid order;
and within every sibling frame group the last-child flag — which is
what selects the `└── ` connector — is set exactly once, on the final
sibling. -/
theorem c6_amended :
    (∀ (n : Nat) (g : NodeGraph n) (sr : Bool) (now₁ now₂ : Rat)
       (visited : Finset Int) (frames : List (Fin n × String × Bool)),
       renderSteps g sr false now₁ visited frames = renderSteps g sr false now₂ visited frames) ∧
    (∀ (procs : List ProcessInfo) (p : ProcessInfo),
       List.Sorted pidLE (builtChildren procs p) ∧ List.Sorted pidLE (root_processes procs)) ∧
    (∀ (α : Type) (cs : List α) (pre : String),
       (mkFrames cs pre).map (fun f => f.snd.snd) =
         if cs.length = 0 then [] else List.replicate (cs.length - 1) false ++ [true]) ∧
    (∀ il : Bool, connector il = "└── " ↔ il = true) := by
  refine ⟨?_, ?_, mkFrames_is_last, ?_⟩
  · intro n g sr now₁ now₂ visited frames
    induction visited, frames using renderSteps.induct g sr false now₁ with
    | case1 visited => rw [renderSteps, renderSteps]
    | case2 visited v pre il rest h ih =>
      rw [renderSteps, renderSteps, dif_pos h, dif_pos h]
      exact ih
    | case3 visited v pre il rest h ih =>
      rw [renderSteps, renderSteps, dif_neg h, dif_neg h,
        nodeLines_verbose_false sr (g.info v) pre il now₁ now₂]
      exact congrArg (List.cons _) ih
  · intro procs p
    exact ⟨List.sorted_insertionSort pidLE _, List.sorted_insertionSort pidLE _⟩
  · intro il
    cases il
    · exact ⟨fun h => absurd h (by decide), fun h => absurd h (by decide)⟩
    · exact ⟨fun _ => rfl, fun _ => rfl⟩

/-- C8 counterexample: at exactly 500 MB the code classifies the memory
as the middle (yellow) tier, because line 249 uses the strict test
`memory_mb > 500`; the claim's "memory >= 500MB is high" is false at
the boundary. -/
theorem c8_counterexample :
    memColor 500 = foreYELLOW ∧ foreYELLOW ≠ foreRED := by
  constructor
  · rw [memColor, if_neg (by norm_num), if_pos (by norm_num)]
  · decide

theorem nodeLines_length_congr (sr vb : Bool) (p₁ p₂ : ProcessInfo) (pre : String)
    (il : Bool) (now : Rat) (hcm : p₂.cmdline = p₁.cmdline) (hnm : p₂.name = p₁.name) :
    (nodeLines sr vb p₂ pre il now).length = (nodeLines sr vb p₁ pre il now).length := by
  unfold nodeLines
  rw [hcm, hnm]
  split_ifs with h <;> simp only [List.length_cons, List.length_nil]

theorem renderSteps_memory_congr {n : Nat} (g₁ g₂ : NodeGraph n) (sr vb : Bool) (now : Rat)
    (hinfo : ∀ v, g₂.info v = { g₁.info v with memory_mb := (g₂.info v).memory_mb })
    (hch : g₂.children = g₁.children) :
    ∀ (visited : Finset Int) (frames : List (Fin n × String × Bool)),
      (renderSteps g₂ sr vb now visited frames).map (fun s => (s.fst, s.snd.length)) =
        (renderSteps g₁ sr vb now visited frames).map (fun s => (s.fst, s.snd.length)) := by
  intro visited frames
  have hpid : ∀ v, (g₂.info v).pid = (g₁.info v).pid := fun v => by rw [hinfo v]
  induction visited, frames using renderSteps.induct g₁ sr vb now with
  | case1 visited => rw [renderSteps, renderSteps]
  | case2 visited v pre il rest h ih =>
    rw [renderSteps, renderSteps, dif_pos h, dif_pos (by rw [hpid v]; exact h)]
    exact ih
  | case3 visited v pre il rest h ih =>
    rw [renderSteps, renderSteps, dif_neg h, dif_neg (by rw [hpid v]; exact h)]
    rw [List.map_cons, List.map_cons]
    have hhead : ((v, nodeLines sr vb (g₂.info v) pre il now) : Fin n × List String).fst =
        v := rfl
    have hlen : (nodeLines sr vb (g₂.info v) pre il now).length =
        (nodeLines sr vb (g₁.info v) pre il now).length :=
      nodeLines_length_congr sr vb (g₁.info v) (g₂.info v) pre il now
        (by rw [hinfo v]) (by rw [hinfo v])
    rw [show ((v, nodeLines sr vb (g₂.info v) pre il now) : Fin n × List String).snd.length =
        (nodeLines sr vb (g₂.info v) pre il now).length from rfl] at *
    refine congrArg₂ (fun a b => List.cons a b) (by rw [Prod.mk.injEq]; exact ⟨rfl, hlen⟩) ?_
    rw [hpid v, hch]
    exact ih

/-- One-node graph identical to `uptimeGraph` except that the node's
memory is 1 MB instead of 0: used to witness that memory affects only
styling. -/
def gMem2 : NodeGraph 1 :=
  ⟨fun _ => ⟨1, 0, "a", "user", "running", 0, 1, 1, 0, "a"⟩, fun _ => []⟩

/-- C8 (amended): the severity tiers are *strict*: memory strictly
above 500 is red ("high"), strictly above 100 yellow ("medium"), else
white ("normal") — at exactly 500 the code yields the medium tier
(`c8_counterexample`).  The tier affects only styling: two node
structures agreeing on everything except `memory_mb` emit the same
node sequence with the same number of lines per node. -/
theorem c8_amended :
    (∀ m : Rat,
      (500 < m → memColor m = foreRED) ∧
      (100 < m ∧ m ≤ 500 → memColor m = foreYELLOW) ∧
      (m ≤ 100 → memColor m = foreWHITE)) ∧
    (∀ (n : Nat) (g₁ g₂ : NodeGraph n) (sr vb : Bool) (now : Rat)
       (visited : Finset Int) (frames : List (Fin n × String × Bool)),
       (∀ v, g₂.info v = { g₁.info v with memory_mb := (g₂.info v).memory_mb }) →
       g₂.children = g₁.children →
       (renderSteps g₂ sr vb now visited frames).map (fun s => (s.fst, s.snd.length)) =
         (renderSteps g₁ sr vb now visited frames).map (fun s => (s.fst, s.snd.length))) := by
  constructor
  · intro m
    refine ⟨fun h => ?_, fun h => ?_, fun h => ?_⟩
    · rw [memColor, if_pos h]
    · rw [memColor, if_neg (not_lt.mpr h.2), if_pos h.1]
    · rw [memColor, if_neg (not_lt.mpr (le_trans h (by norm_num))), if_neg (not_lt.mpr h)]
  · intro n g₁ g₂ sr vb now visited frames hinfo hch
    exact renderSteps_memory_congr g₁ g₂ sr vb now hinfo hch visited frames

/-- Closed instance of `c8_amended`: the three tiers at 501, 500 and
100 MB, and the styling-only invariance on a concrete pair of
one-node graphs differing exactly in memory (0 MB vs 1 MB). -/
theorem c8_witness :
    (((500 : Rat) < 501 ∧ memColor 501 = foreRED) ∧
     (((100 : Rat) < 500 ∧ (500 : Rat) ≤ 500) ∧ memColor 500 = foreYELLOW) ∧
     ((100 : Rat) ≤ 100 ∧ memColor 100 = foreWHITE)) ∧
    ((∀ v, gMem2.info v = { uptimeGraph.info v with memory_mb := (gMem2.info v).memory_mb }) ∧
      gMem2.children = uptimeGraph.children ∧
      (renderSteps gMem2 true false 0 ∅ (mkFrames [0] "")).map
          (fun s => (s.fst, s.snd.length)) =
        (renderSteps uptimeGraph true false 0 ∅ (mkFrames [0] "")).map
          (fun s => (s.fst, s.snd.length))) :=
  ⟨⟨⟨by norm_num, (c8_amended.1 501).1 (by norm_num)⟩,
    ⟨⟨by norm_num, le_refl 500⟩, (c8_amended.1 500).2.1 ⟨by norm_num, le_refl 500⟩⟩,
    ⟨le_refl 100, (c8_amended.1 100).2.2 (le_refl 100)⟩⟩,
   ⟨fun v => rfl, funext fun v => rfl,
    c8_amended.2 1 uptimeGraph gMem2 true false 0 ∅ (mkFrames [0] "")
      (fun v => rfl) (funext fun v => rfl)⟩⟩

/-- Record for the verbose-mode witness: a command line of 85
characters, distinct from the name. -/
def vRec : ProcessInfo :=
  ⟨7, 0, "x", "user", "running", 0, 0, 1, 0,
    "aaaaaaaaaabbbbbbbbbbccccccccccddddddddddeeeeeeeeeeffffffffffgggggggggghhhhhhhhhhiiiii"⟩

/-- C9: in verbose mode every rendered node produces one primary line,
plus one secondary line holding the command line exactly when the
command line differs from the name; the displayed command line is the
80-character truncation, with `"..."` appended exactly when the
command line exceeds 80 characters. -/
theorem c9_verbose_lines (sr : Bool) (p : ProcessInfo) (pre : String) (il : Bool) (now : Rat) :
    ((nodeLines sr true p pre il now).length = if p.cmdline = p.name then 1 else 2) ∧
    (p.cmdline ≠ p.name →
      (nodeLines sr true p pre il now)[1]? = some (secondaryLine p pre il)) ∧
    (p.cmdline = p.name →
      nodeLines sr true p pre il now = [primaryLine sr true p pre il now]) ∧
    (p.cmdline.length ≤ 80 → cmd_display p = p.cmdline) ∧
    (80 < p.cmdline.length →
      cmd_display p = String.mk (p.cmdline.toList.take 80) ++ "...") := by
  refine ⟨?_, fun h => ?_, fun h => ?_, fun h => ?_, fun h => ?_⟩
  · by_cases h : p.cmdline = p.name
    · rw [nodeLines, if_neg (fun hc => hc.2 h), if_pos h]
      simp only [List.length_cons, List.length_nil]
    · rw [nodeLines, if_pos ⟨rfl, h⟩, if_neg h]
      simp only [List.length_cons, List.length_nil]
  · rw [nodeLines, if_pos ⟨rfl, h⟩]
    rfl
  · rw [nodeLines, if_neg (fun hc => hc.2 h)]
  · rw [cmd_display, if_neg (not_lt.mpr h)]
    have htake : p.cmdline.toList.take 80 = p.cmdline.toList :=
      List.take_of_length_le (show p.cmdline.toList.length ≤ 80 from h)
    rw [htake, show String.mk p.cmdline.toList = p.cmdline from rfl]
    exact String.append_empty p.cmdline
  · rw [cmd_display, if_pos h]

/-- Closed instance of `c9_verbose_lines` on two concrete records: one
whose 85-character command line differs from its name (secondary line
present, ellipsis appended), one whose command line equals its name
(secondary line suppressed, no ellipsis). -/
theorem c9_witness :
    (vRec.cmdline ≠ vRec.name ∧
      (nodeLines false true vRec "" true 0)[1]? = some (secondaryLine vRec "" true) ∧
      80 < vRec.cmdline.length ∧
      cmd_display vRec = String.mk (vRec.cmdline.toList.take 80) ++ "...") ∧
    (uptimeRec.cmdline = uptimeRec.name ∧
      nodeLines false true uptimeRec "" true 0 = [primaryLine false true uptimeRec "" true 0] ∧
      uptimeRec.cmdline.length ≤ 80 ∧
      cmd_display uptimeRec = uptimeRec.cmdline) :=
  ⟨⟨by decide, (c9_verbose_lines false vRec "" true 0).2.1 (by decide), by decide,
    (c9_verbose_lines false vRec "" true 0).2.2.2.2 (by decide)⟩,
   ⟨rfl, (c9_verbose_lines false uptimeRec "" true 0).2.2.1 rfl, by decide,
    (c9_verbose_lines false uptimeRec "" true 0).2.2.2.1 (by decide)⟩⟩

/- Search: find_process (source lines 277-304). -/

/-- Digit-string evaluation used by `pyInt`. -/
def digitsToNat : List Char → Option Nat
  | [] => none
  | cs =>
    if cs.all Char.isDigit then
      some (cs.foldl (fun a c => a * 10 + (c.toNat - 48)) 0)
    else none

/-- Models Python `int(query)` on the query string (source line 291):
optional surrounding whitespace, an optional sign, then decimal
digits; anything else raises `ValueError`, modelled as `none`.
(Python also accepts single underscores between digits; no claim
depends on that.) -/
def pyInt (s : String) : Option Int :=
  let cs := ((s.toList.dropWhile Char.isWhitespace).reverse.dropWhile Char.isWhitespace).reverse
  match cs with
  | '-' :: rest => (digitsToNat rest).map (fun v => -(v : Int))
  | '+' :: rest => (digitsToNat rest).map (fun v => (v : Int))
  | rest => (digitsToNat rest).map (fun v => (v : Int))

/-- Case-insensitive substring test, modelling
`query.lower() in proc.name.lower()` (source lines 299-301). -/
def containsCI (query name : String) : Bool :=
  decide (List.IsInfix (query.toList.map Char.toLower) (name.toList.map Char.toLower))

/-- Embeds `ProcessTree.find_process` (source lines 277-304): if the
query parses as an integer, return the dict entry for that pid (or
nothing) and never fall through to the name search; otherwise filter
by case-insensitive substring of the name, in dict order. -/
def find_process (procs : List ProcessInfo) (query : String) : List ProcessInfo :=
  match pyInt query with
  | some pid =>
    match procs.find? (fun p => p.pid == pid) with
    | some p => [p]
    | none => []
  | none => procs.filter (fun p => containsCI query p.name)

theorem find_pid_some {procs : List ProcessInfo}
    (hnd : (procs.map (fun p => p.pid)).Nodup) {p : ProcessInfo} {pid : Int}
    (hp : p ∈ procs) (heq : p.pid = pid) :
    procs.find? (fun q => q.pid == pid) = some p := by
  cases hfind : procs.find? (fun q => q.pid == pid) with
  | none =>
    exact absurd heq (by simpa using List.find?_eq_none.mp hfind p hp)
  | some q =>
    have hq : q ∈ procs := List.mem_of_find?_eq_some hfind
    have hqp : q.pid = pid := by simpa using List.find?_some hfind
    exact congrArg some (nodupPids_inj hnd hq hp (hqp.trans heq.symm))

/-- C5: with unique pids, a query that parses as an integer matching an
existing pid returns exactly that pid's record as a singleton; an
integer query matching no pid returns the empty list (not an error);
and a non-integer query returns exactly the records whose name
contains the query case-insensitively. -/
theorem find_process_pid_branch (procs : List ProcessInfo) {query : String} {pid : Int}
    (hq : pyInt query = some pid) :
    find_process procs query =
      match procs.find? (fun p => p.pid == pid) with
      | some p => [p]
      | none => [] := by
  unfold find_process
  rw [hq]

theorem find_process_name_branch (procs : List ProcessInfo) {query : String}
    (hq : pyInt query = none) :
    find_process procs query = procs.filter (fun p => containsCI query p.name) := by
  unfold find_process
  rw [hq]

theorem c5_search (procs : List ProcessInfo) (query : String)
    (hnd : (procs.map (fun p => p.pid)).Nodup) :
    (∀ pid : Int, pyInt query = some pid →
      (∀ p ∈ procs, p.pid = pid → find_process procs query = [p]) ∧
      ((∀ p ∈ procs, p.pid ≠ pid) → find_process procs query = [])) ∧
    (pyInt query = none →
      ∀ r, r ∈ find_process procs query ↔ r ∈ procs ∧ containsCI query r.name = true) := by
  constructor
  · intro pid hq
    constructor
    · intro p hp heq
      rw [find_process_pid_branch procs hq, find_pid_some hnd hp heq]
    · intro hnone
      rw [find_process_pid_branch procs hq,
        List.find?_eq_none.mpr (fun x hx => by simpa using hnone x hx)]
  · intro hq r
    rw [find_process_name_branch procs hq, List.mem_filter]

/-- Snapshot used by the search witness. -/
def sProcs : List ProcessInfo := [mkRec 3 0 "Init", mkRec 42 3 "shell"]

/-- Closed instance of `c5_search`: pid query `"42"` returns exactly
the pid-42 record, pid query `"7"` matches nothing and returns the
empty list, and the non-numeric query `"zz"` takes the substring
branch. -/
theorem c5_witness :
    ((sProcs.map (fun p => p.pid)).Nodup ∧ pyInt "42" = some 42 ∧
      (mkRec 42 3 "shell") ∈ sProcs ∧ pyInt "zz" = none) ∧
    find_process sProcs "42" = [mkRec 42 3 "shell"] ∧
    find_process sProcs "7" = [] ∧
    (∀ r, r ∈ find_process sProcs "zz" ↔ r ∈ sProcs ∧ containsCI "zz" r.name = true) :=
  ⟨⟨by decide, by decide, by decide, by decide⟩,
   ((c5_search sProcs "42" (by decide)).1 42 (by decide)).1 (mkRec 42 3 "shell")
     (by decide) (by decide),
   ((c5_search sProcs "7" (by decide)).1 7 (by decide)).2 (by decide),
   (c5_search sProcs "zz" (by decide)).2 (by decide)⟩

/-- C10: whenever the query parses as an integer, `find_process`
returns a sublist of the singleton dict entry of that pid — it is
either empty or one record with exactly that pid, the name-substring
branch is never reached, and any record whose pid differs (whatever
its name, numeric or not) is excluded from the result. -/
theorem c10_numeric_query (procs : List ProcessInfo) (query : String) (pid : Int)
    (h : pyInt query = some pid) :
    (∀ r ∈ find_process procs query, r ∈ procs ∧ r.pid = pid) ∧
    (find_process procs query = [] ∨ ∃ p, find_process procs query = [p]) ∧
    (∀ r ∈ procs, r.pid ≠ pid → r ∉ find_process procs query) := by
  rw [find_process_pid_branch procs h]
  cases hf : procs.find? (fun p => p.pid == pid) with
  | none => simp
  | some p =>
    have hpm : p ∈ procs := List.mem_of_find?_eq_some hf
    have hpp : p.pid = pid := by simpa using List.find?_some hf
    refine ⟨?_, Or.inr ⟨p, rfl⟩, ?_⟩
    · intro r hr
      rw [List.mem_singleton.mp hr]
      exact ⟨hpm, hpp⟩
    · intro r _ hne hmem
      exact hne ((List.mem_singleton.mp hmem) ▸ hpp)

/-- A snapshot containing one process whose *name* is the numeric
string `"42"` but whose pid is 7. -/
def n42Procs : List ProcessInfo := [mkRec 7 0 "42"]

/-- Closed instance of `c10_numeric_query`: searching `"42"` over a
snapshot whose only record is *named* `"42"` (pid 7) takes the pid
branch; the third conjunct excludes that record from the result. -/
theorem c10_witness :
    pyInt "42" = some 42 ∧
    ((∀ r ∈ find_process n42Procs "42", r ∈ n42Procs ∧ r.pid = 42) ∧
     (find_process n42Procs "42" = [] ∨ ∃ p, find_process n42Procs "42" = [p]) ∧
     (∀ r ∈ n42Procs, r.pid ≠ 42 → r ∉ find_process n42Procs "42")) :=
  ⟨by decide, c10_numeric_query n42Procs "42" 42 (by decide)⟩

/- Statistics: get_statistics (source lines 339-350). -/

/-- The statistics dict returned by `get_statistics`. -/
structure Stats where
  total_processes : Nat
  root_processes : Nat
  total_memory_mb : Rat
  total_threads : Nat
  running : Nat
  sleeping : Nat
  zombie : Nat


/-- Aggregation of a record list, with the root count taken from a
predicate; `get_statistics` instantiates it with the flat dict values
and the built root list length. -/
def statsOver (l : List ProcessInfo) (rootCount : Nat) : Stats :=
  ⟨l.length, rootCount,
    (l.map (fun p => p.memory_mb)).sum,
    (l.map (fun p => p.num_threads)).sum,
    l.countP (fun p => p.status == "running"),
    l.countP (fun p => p.status == "sleeping"),
    l.countP (fun p => p.status == "zombie")⟩

/-- Embeds `ProcessTree.get_statistics` (source lines 339-350): all
sums and counts range over the flat `self.processes` dict; the root
count is the length of `self.root_processes`. -/
def get_statistics (procs : List ProcessInfo) : Stats :=
  statsOver procs (root_processes procs).length

/-- The same statistics computed by walking the full forest from its
roots, the root count being the number of walked records whose parent
pid is absent. -/
def walkStatistics (procs : List ProcessInfo) : Stats :=
  statsOver (forestWalk procs)
    ((forestWalk procs).countP (fun r => !pidPresent procs r.ppid))

/-- C7 counterexample: on the cyclic two-record input (which the spec
itself uses), the flat statistics count 2 processes while the forest
walk from the roots reaches none, so the two computations disagree. -/
theorem c7_counterexample :
    (get_statistics cycProcs).total_processes = 2 ∧
    (walkStatistics cycProcs).total_processes = 0 ∧
    get_statistics cycProcs ≠ walkStatistics cycProcs := by
  have hw : forestWalk cycProcs = [] := by
    rw [forestWalk, cyc_roots_empty, walkAll]
  refine ⟨rfl, ?_, ?_⟩
  · rw [walkStatistics, hw]; rfl
  · intro h
    have h2 := congrArg Stats.total_processes h
    rw [show (get_statistics cycProcs).total_processes = 2 from rfl,
      walkStatistics, hw] at h2
    exact absurd h2 (by decide)

/-- C7 (amended): for every input record set with unique pids and
acyclic parent chains, the aggregate statistics over the flat record
set equal those computed by walking the full forest from its roots. -/
theorem c7_amended (procs : List ProcessInfo)
    (hnd : (procs.map (fun p => p.pid)).Nodup) (hac : acyclicB procs = true) :
    get_statistics procs = walkStatistics procs := by
  have hperm : (forestWalk procs).Perm procs := forestWalk_perm hnd hac
  have hroot : (root_processes procs).length =
      (forestWalk procs).countP (fun r => !pidPresent procs r.ppid) := by
    rw [root_processes, (List.perm_insertionSort pidLE _).length_eq,
      ← List.countP_eq_length_filter, hperm.countP_eq]
  unfold get_statistics walkStatistics statsOver
  simp only [Stats.mk.injEq]
  exact ⟨hperm.length_eq.symm, hroot, ((hperm.map (fun p => p.memory_mb)).sum_eq).symm,
    ((hperm.map (fun p => p.num_threads)).sum_eq).symm,
    (hperm.countP_eq (fun p => p.status == "running")).symm,
    (hperm.countP_eq (fun p => p.status == "sleeping")).symm,
    (hperm.countP_eq (fun p => p.status == "zombie")).symm⟩

/-- Closed instance of `c7_amended` on the spec's four-record example. -/
theorem c7_witness :
    ((exProcs.map (fun p => p.pid)).Nodup ∧ acyclicB exProcs = true) ∧
    get_statistics exProcs = walkStatistics exProcs :=
  ⟨⟨by decide, by decide⟩, c7_amended exProcs (by decide) (by decide)⟩

/-- Closed instance of `c2_amended` at the self-parented record, with
the child-membership hypothesis discharged concretely. -/
theorem c2_witness :
    (selfRec ∈ builtChildren selfProcs selfRec) ∧
    (selfRec ∈ root_processes selfProcs ↔
      selfRec ∈ selfProcs ∧ pidPresent selfProcs selfRec.ppid = false) ∧
    (selfRec ∈ selfProcs ∧ selfRec.ppid = selfRec.pid) :=
  ⟨by decide, c2_amended.1 selfProcs selfRec,
    c2_amended.2 selfProcs selfRec selfRec (by decide)⟩
